import Mathlib

/-!
# Verification of the werkzeug form-data parser specification

The repository ships only the test suite of `werkzeug.formparser`
(`werkzeug/testsuite/formparser.py`); the implementation module itself is not
part of the sources.  Every definition below whose doc comment starts with
`Modelled from the spec:` is therefore a shallow embedding reconstructed from
the natural-language specification (spec.md), faithful to its words and kept
consistent with the behaviour the shipped tests demand.

Bytes are modelled as `Char` values and byte strings as `List Char`; a raw
line keeps its terminator characters.
-/

set_option maxHeartbeats 1000000

deriving instance DecidableEq for Except

namespace Werkzeug

/-- Horizontal whitespace, as used by header folding and value trimming. -/
def isWSChar (c : Char) : Bool :=
  c = ' ' || c = '\t'

/-- A character that is not a line terminator. -/
def cleanChar (c : Char) : Bool :=
  c ≠ '\r' && c ≠ '\n'

/-- A line with no terminator characters inside. -/
def cleanLine (l : List Char) : Bool :=
  l.all cleanChar

/-- Drop leading horizontal whitespace. -/
def trimLeft : List Char → List Char
  | [] => []
  | c :: r => if isWSChar c then trimLeft r else c :: r

/-- Strip horizontal whitespace from both ends. -/
def trimWS (l : List Char) : List Char :=
  (trimLeft (trimLeft l).reverse).reverse

/-- Lower-case a name for case-insensitive comparisons. -/
def lowerStr (l : List Char) : List Char :=
  l.map Char.toLower

/-- Split a list on a separator character (separator not kept). -/
def splitOnChar (sep : Char) : List Char → List (List Char)
  | [] => [[]]
  | c :: r =>
    let rest := splitOnChar sep r
    if c = sep then [] :: rest
    else
      match rest with
      | [] => [[c]]
      | s :: ss => (c :: s) :: ss

/-- Split at the first occurrence of a separator, if any. -/
def splitFirst (sep : Char) : List Char → Option (List Char × List Char)
  | [] => none
  | c :: r =>
    if c = sep then some ([], r)
    else
      match splitFirst sep r with
      | none => none
      | some (a, b) => some (c :: a, b)

/-- Modelled from the spec: the LineTerminatorScanner's raw line splitting.
`splitLinesAux` accumulates the current line (reversed) and cuts a raw line,
terminator included, after CRLF, bare CR, or bare LF. -/
def splitLinesAux : List Char → List Char → List (List Char)
  | acc, [] => if acc.isEmpty then [] else [acc.reverse]
  | acc, c :: rest =>
    if c = '\r' then
      match rest with
      | [] => [acc.reverse ++ ['\r']]
      | d :: rest2 =>
        if d = '\n' then (acc.reverse ++ ['\r', '\n']) :: splitLinesAux [] rest2
        else (acc.reverse ++ ['\r']) :: splitLinesAux [] (d :: rest2)
    else if c = '\n' then (acc.reverse ++ ['\n']) :: splitLinesAux [] rest
    else splitLinesAux (c :: acc) rest

/-- Modelled from the spec: split a byte stream into raw lines, each keeping
its CRLF / CR / LF terminator; a final line may lack a terminator. -/
def splitToLines (body : List Char) : List (List Char) :=
  splitLinesAux [] body

/-- Modelled from the spec (and `test_lien_parser`): strip one trailing CRLF,
CR, or LF from a raw line and report whether a terminator was present. -/
def lineParse (l : List Char) : List Char × Bool :=
  if l.getLast? = some '\n' then
    if l.dropLast.getLast? = some '\r' then (l.dropLast.dropLast, true)
    else (l.dropLast, true)
  else if l.getLast? = some '\r' then (l.dropLast, true)
  else (l, false)

/-- The content of a raw line with its terminator stripped. -/
def stripLine (l : List Char) : List Char :=
  (lineParse l).1

/-- Modelled from the spec's error taxonomy (section 7): configuration
failures are always fatal, protocol violations are downgraded in silent mode,
entity-too-large is always surfaced. -/
inductive Err where
  | configurationError
  | protocolViolation
  | entityTooLarge
  deriving DecidableEq, Repr

/-- A header map: parsed (key, value) pairs in order of appearance. -/
abbrev Headers := List (List Char × List Char)

/-- Modelled from the spec: the HeaderBlockParser core, working on already
line-parsed input `(content, terminated)`.  An unterminated line is an error
(`test_failures`); a blank line ends the block; a folded continuation line
(leading horizontal whitespace) appends its terminator-stripped content to the
previous value joined by a single newline; any other line must contain a `:`
delimiter, and key and value are trimmed. -/
def pmhCore : Headers → List (List Char × Bool) → Except Err Headers
  | acc, [] => .ok acc.reverse
  | acc, (content, term) :: rest =>
    if term = false then .error .protocolViolation
    else if content.isEmpty then .ok acc.reverse
    else if isWSChar content.headI then
      match acc with
      | [] => .error .protocolViolation
      | (k, v) :: accRest => pmhCore ((k, v ++ '\n' :: content) :: accRest) rest
    else
      match splitFirst ':' content with
      | some (k, v) => pmhCore ((trimWS k, trimWS v) :: acc) rest
      | none => .error .protocolViolation

/-- Modelled from the spec: `parse_multipart_headers` takes raw header lines
(with terminators) and produces the header map. -/
def parse_multipart_headers (ls : List (List Char)) : Except Err Headers :=
  pmhCore [] (ls.map lineParse)

/-- Case-insensitive header lookup (first match). -/
def headerGet (hs : Headers) (key : List Char) : Option (List Char) :=
  (hs.find? (fun p => lowerStr p.1 = lowerStr key)).map (·.2)

/-- Strip one pair of surrounding double quotes from a parameter value. -/
def unquote (l : List Char) : List Char :=
  match l with
  | '"' :: rest =>
    match rest.reverse with
    | '"' :: mid => mid.reverse
    | _ => l
  | _ => l

/-- Modelled from the spec: extract a `;`-separated `key=value` parameter from
a header value such as `form-data; name="foo"; filename="foo.txt"`.  Keys are
matched case-insensitively after trimming; values are trimmed and unquoted. -/
def extractParam (key : List Char) (v : List Char) : Option (List Char) :=
  (v |> splitOnChar ';' |>.filterMap (fun seg =>
      match splitFirst '=' seg with
      | some (k, val) =>
        if lowerStr (trimWS k) = lowerStr key then some (unquote (trimWS val)) else none
      | none => none)).head?

/-- The `name` parameter of a part's Content-Disposition header, if any. -/
def dispositionName (hs : Headers) : Option (List Char) :=
  (headerGet hs "content-disposition".data).bind (extractParam "name".data)

/-- The `filename` parameter of a part's Content-Disposition header, if any. -/
def dispositionFilename (hs : Headers) : Option (List Char) :=
  (headerGet hs "content-disposition".data).bind (extractParam "filename".data)

/-- The part's declared transfer encoding, if any. -/
def transferEncoding (hs : Headers) : Option (List Char) :=
  headerGet hs "content-transfer-encoding".data

/-- Modelled from the spec: PartStorage is an append-only sink that is either
an in-memory buffer or a spooled temporary file. -/
inductive Storage where
  | memory (data : List Char)
  | spooled (data : List Char)
  deriving DecidableEq, Repr

/-- The bytes accumulated in a storage sink. -/
def Storage.data : Storage → List Char
  | .memory d => d
  | .spooled d => d

/-- Keep the backing mode of a sink, replacing its contents. -/
def Storage.withData : Storage → List Char → Storage
  | .memory _, d => .memory d
  | .spooled _, d => .spooled d

/-- Modelled from the spec: append one decoded chunk to a part's storage.  A
file part (one carrying a filename) whose accumulated bytes exceed
`max_form_memory_size` is promoted to spooled storage; a non-file field
exceeding the threshold fails immediately with entity-too-large and is never
spooled. -/
def appendChunk (isFile : Bool) (limit : Option Nat) (st : Storage)
    (chunk : List Char) : Except Err Storage :=
  let d := st.data ++ chunk
  match limit with
  | none => .ok (st.withData d)
  | some m =>
    if d.length > m then
      if isFile then .ok (.spooled d) else .error .entityTooLarge
    else .ok (st.withData d)

/-- Write a whole sequence of decoded chunks into a fresh storage sink. -/
def writeAll (isFile : Bool) (limit : Option Nat) (chunks : List (List Char)) :
    Except Err Storage :=
  chunks.foldlM (appendChunk isFile limit) (.memory [])

/-- The value of one base64 alphabet character. -/
def b64Val (c : Char) : Option Nat :=
  if 'A' ≤ c ∧ c ≤ 'Z' then some (c.toNat - 'A'.toNat)
  else if 'a' ≤ c ∧ c ≤ 'z' then some (c.toNat - 'a'.toNat + 26)
  else if '0' ≤ c ∧ c ≤ '9' then some (c.toNat - '0'.toNat + 52)
  else if c = '+' then some 62
  else if c = '/' then some 63
  else none

/-- Modelled from the spec: strict base64 decoding of a chunk; groups of four
alphabet characters with optional final padding, anything else fails. -/
def base64Decode : List Char → Option (List Char)
  | [] => some []
  | c1 :: c2 :: c3 :: c4 :: rest => do
    let v1 ← b64Val c1
    let v2 ← b64Val c2
    if c3 = '=' ∧ c4 = '=' ∧ rest.isEmpty then
      some [Char.ofNat (v1 * 4 + v2 / 16)]
    else do
      let v3 ← b64Val c3
      if c4 = '=' ∧ rest.isEmpty then
        some [Char.ofNat (v1 * 4 + v2 / 16), Char.ofNat (v2 % 16 * 16 + v3 / 4)]
      else do
        let v4 ← b64Val c4
        let tail ← base64Decode rest
        some (Char.ofNat (v1 * 4 + v2 / 16) :: Char.ofNat (v2 % 16 * 16 + v3 / 4)
              :: Char.ofNat (v3 % 4 * 64 + v4) :: tail)
  | _ => none

/-- Modelled from the spec: decode the buffered body chunks according to the
part's transfer encoding before they reach storage.  No declared encoding
passes the chunks through; `base64` decodes each chunk; any other declared
encoding is undecodable.  `none` signals a decode failure. -/
def decodeChunks (enc : Option (List Char)) (chunks : List (List Char)) :
    Option (List (List Char)) :=
  match enc with
  | none => some chunks
  | some e =>
    if lowerStr e = "base64".data then chunks.mapM base64Decode
    else none

/-- The part boundary line `--{boundary}`. -/
def nextPart (b : List Char) : List Char :=
  '-' :: '-' :: b

/-- The terminal boundary line `--{boundary}--`. -/
def lastPart (b : List Char) : List Char :=
  '-' :: '-' :: b ++ ['-', '-']

/-- Modelled from the spec: a boundary is usable when it is non-empty and does
not end in whitespace (an empty or whitespace-only boundary is a
configuration failure; `test_failures` also rejects a boundary with trailing
blanks, which could never match a stripped line). -/
def validBoundary (b : List Char) : Bool :=
  match b.reverse with
  | [] => false
  | c :: _ => ¬ isWSChar c

/-- Modelled from the spec: *SeekFirstBoundary* — discard raw lines until one
whose terminator-stripped content equals `--{boundary}`; finding the terminal
form `--{boundary}--` first ends the body with empty collections (`true`);
end of stream first is a protocol violation. -/
def seekBoundary (nx la : List Char) : List (List Char) →
    Except Err (List (List Char) × Bool)
  | [] => .error .protocolViolation
  | l :: rest =>
    let s := stripLine l
    if s = la then .ok (rest, true)
    else if s = nx then .ok (rest, false)
    else seekBoundary nx la rest

/-- Modelled from the spec: collect a part's raw header lines up to and
including the first blank line; end of stream before the blank line is a
protocol violation (`none`). -/
def collectUntilBlank : List (List Char) →
    Option (List (List Char) × List (List Char))
  | [] => none
  | l :: rest =>
    if (stripLine l).isEmpty then some ([l], rest)
    else
      match collectUntilBlank rest with
      | none => none
      | some (blk, rem) => some (l :: blk, rem)

/-- Is the upcoming raw line a part or terminal boundary?  This is the
scanner's one-line lookahead. -/
def boundaryNext (nx la : List Char) : List (List Char) → Bool
  | [] => false
  | l2 :: _ => stripLine l2 = la || stripLine l2 = nx

/-- Modelled from the spec: *StreamingBody* — read raw lines until the next
boundary line.  The boundary owns the terminator immediately preceding it, so
a content line is committed with its terminator unless the following line is
a boundary, in which case it is committed stripped (one-line lookahead).
Returns the committed chunks, whether the boundary was terminal, and the
remaining lines; end of stream without a boundary is a protocol violation. -/
def readBody (nx la : List Char) : List (List Char) →
    Except Err (List (List Char) × Bool × List (List Char))
  | [] => .error .protocolViolation
  | l :: rest =>
    if stripLine l = la then .ok ([], true, rest)
    else if stripLine l = nx then .ok ([], false, rest)
    else
      match readBody nx la rest with
      | .error e => .error e
      | .ok (chunks, isLast, rem) =>
        .ok ((if boundaryNext nx la rest then stripLine l else l) :: chunks,
             isLast, rem)

/-- A parsed form: field name mapped to its decoded values in order. -/
abbrev Form := List (List Char × List (List Char))

/-- One uploaded file: disposition filename, the part's headers, and the
part's (possibly spooled) storage. -/
structure FileUpload where
  filename : List Char
  headers : Headers
  storage : Storage
  deriving DecidableEq, Repr

/-- A parsed files collection: field name mapped to its uploads in order. -/
abbrev Files := List (List Char × List FileUpload)

/-- Append a value for a key in an ordered association, keeping insertion
order per key. -/
def addAssoc {α : Type} : List (List Char × List α) → List Char → α →
    List (List Char × List α)
  | [], k, v => [(k, [v])]
  | (k', vs) :: rest, k, v =>
    if k' = k then (k', vs ++ [v]) :: rest
    else (k', vs) :: addAssoc rest k v

/-- Modelled from the spec: finalize a part into the form (no filename) or the
files (filename present) collection, classified once by the presence of the
`filename` disposition parameter. -/
def insertPart (name : List Char) (filename : Option (List Char))
    (hs : Headers) (st : Storage) (form : Form) (files : Files) : Form × Files :=
  match filename with
  | none => (addAssoc form name st.data, files)
  | some fn => (form, addAssoc files name ⟨fn, hs, st⟩)

/-- Modelled from the spec: the MultiPartParser part loop.  Each iteration
parses one part's header block, requires a disposition `name` (configuration
failure otherwise), streams the body to the next boundary, decodes it, writes
it to storage under the memory limit, and finalizes the part; a terminal
boundary returns the accumulated collections.  `fuel` bounds the number of
iterations; `none` means the fuel ran out. -/
def multipartLoop (nx la : List Char) (limit : Option Nat) :
    Nat → List (List Char) → Form → Files → Option (Except Err (Form × Files))
  | 0, _, _, _ => none
  | fuel + 1, lines, form, files =>
    match collectUntilBlank lines with
    | none => some (.error .protocolViolation)
    | some (blk, rest) =>
      match parse_multipart_headers blk with
      | .error e => some (.error e)
      | .ok hs =>
        match dispositionName hs with
        | none => some (.error .configurationError)
        | some name =>
          let filename := dispositionFilename hs
          match readBody nx la rest with
          | .error e => some (.error e)
          | .ok (chunks, isLast, rest2) =>
            match decodeChunks (transferEncoding hs) chunks with
            | none => some (.error .protocolViolation)
            | some decoded =>
              match writeAll filename.isSome limit decoded with
              | .error e => some (.error e)
              | .ok st =>
                let res := insertPart name filename hs st form files
                if isLast then some (.ok res)
                else multipartLoop nx la limit fuel rest2 res.1 res.2

/-- Modelled from the spec: the MultiPartParser entry point over raw lines.
The boundary is validated unconditionally; then the first boundary is sought
and the part loop runs with fuel ample for the input (the fuel never runs
out, see the termination theorem; the fallback branch is unreachable). -/
def multipartParse (b : List Char) (limit : Option Nat)
    (lines : List (List Char)) : Except Err (Form × Files) :=
  if ¬ validBoundary b then .error .configurationError
  else
    match seekBoundary (nextPart b) (lastPart b) lines with
    | .error e => .error e
    | .ok (_, true) => .ok ([], [])
    | .ok (rest, false) =>
      match multipartLoop (nextPart b) (lastPart b) limit (rest.length + 1)
          rest [] [] with
      | none => .error .protocolViolation
      | some r => r

/-- The value of a hexadecimal digit. -/
def hexVal (c : Char) : Option Nat :=
  if '0' ≤ c ∧ c ≤ '9' then some (c.toNat - '0'.toNat)
  else if 'a' ≤ c ∧ c ≤ 'f' then some (c.toNat - 'a'.toNat + 10)
  else if 'A' ≤ c ∧ c ≤ 'F' then some (c.toNat - 'A'.toNat + 10)
  else none

/-- Modelled from the spec: standard percent-decoding with `+` as space;
malformed percent escapes are kept as literal characters. -/
def percentDecode : List Char → List Char
  | [] => []
  | '+' :: r => ' ' :: percentDecode r
  | '%' :: h1 :: h2 :: r =>
    match hexVal h1, hexVal h2 with
    | some a, some b => Char.ofNat (a * 16 + b) :: percentDecode r
    | _, _ => '%' :: percentDecode (h1 :: h2 :: r)
  | c :: r => c :: percentDecode r

/-- Decode one `key=value` segment (a segment without `=` keeps an empty
value). -/
def parsePair (seg : List Char) : List Char × List Char :=
  match splitFirst '=' seg with
  | some (k, v) => (percentDecode k, percentDecode v)
  | none => (percentDecode seg, [])

/-- Modelled from the spec: the UrlEncodedParser — split on `&`, decode each
pair, accumulate duplicate keys in encounter order; a decoded field value
larger than `max_form_memory_size` is an entity-too-large failure. -/
def urlencodedParse (mfms : Option Nat) (body : List Char) :
    Except Err (Form × Files) :=
  let pairs := (splitOnChar '&' body).map parsePair
  if pairs.any (fun p =>
      match mfms with
      | some m => p.2.length > m
      | none => false) then
    .error .entityTooLarge
  else
    .ok (pairs.foldl (fun f p => addAssoc f p.1 p.2) [], [])

/-- The already-classified media type of the request, as handed to the
dispatcher by the (external) header parsing layer. -/
inductive ContentType where
  | multipart (boundary : List Char)
  | urlencoded
  | other
  deriving DecidableEq, Repr

/-- The configured limits (section 3 of the spec). -/
structure Limits where
  max_content_length : Option Nat
  max_form_memory_size : Option Nat
  deriving DecidableEq, Repr

/-- Does the body exceed the configured `max_content_length`? -/
def tooLong (limits : Limits) (body : List Char) : Bool :=
  match limits.max_content_length with
  | some m => body.length > m
  | none => false

/-- Modelled from the spec: the FormDataParser is the single point deciding
whether a protocol violation is swallowed: silent mode converts it into empty
collections, strict mode propagates it; configuration and entity-too-large
failures always propagate. -/
def handleErrors (silent : Bool) (r : Except Err (Form × Files)) :
    Except Err (Form × Files) :=
  match r with
  | .error .protocolViolation => if silent then .ok ([], []) else r
  | _ => r

/-- Modelled from the spec: the FormDataParser dispatcher.  An unrecognized
content type returns empty collections untouched; the multipart and
urlencoded routes first enforce `max_content_length` (an entity-too-large
failure in every mode), then run their sub-parser, with protocol violations
downgraded in silent mode. -/
def parse_form_data (ct : ContentType) (body : List Char) (limits : Limits)
    (silent : Bool) : Except Err (Form × Files) :=
  match ct with
  | .other => .ok ([], [])
  | .urlencoded =>
    if tooLong limits body then .error .entityTooLarge
    else handleErrors silent (urlencodedParse limits.max_form_memory_size body)
  | .multipart b =>
    if tooLong limits body then .error .entityTooLarge
    else handleErrors silent
      (multipartParse b limits.max_form_memory_size (splitToLines body))

/-! ## Abstract well-formed bodies

To state universal properties we build multipart bodies from abstract parts:
logical header lines and logical value lines, rendered with a chosen line
terminator, then fed to the parser through the raw byte pipeline. -/

/-- A line terminator convention: CRLF, bare CR, or bare LF. -/
def termStr (nl : List Char) : Prop :=
  nl = ['\r', '\n'] ∨ nl = ['\r'] ∨ nl = ['\n']

/-- One abstract part: its logical header lines and logical value lines,
terminators excluded. -/
structure RPart where
  hlines : List (List Char)
  vlines : List (List Char)
  deriving DecidableEq, Repr

/-- The logical lines a part occupies: headers, the blank separator, body. -/
def partLines (p : RPart) : List (List Char) :=
  p.hlines ++ [] :: p.vlines

/-- The logical lines of a body after its first boundary line: each part
followed by the boundary introducing the next part, the last followed by the
terminal boundary. -/
def logicalTail (b : List Char) : List RPart → List (List Char)
  | [] => [lastPart b]
  | [p] => partLines p ++ [lastPart b]
  | p :: ps => partLines p ++ nextPart b :: logicalTail b ps

/-- All logical lines of a rendered body. -/
def bodyLogical (b : List Char) (parts : List RPart) : List (List Char) :=
  nextPart b :: logicalTail b parts

/-- Everything of `logicalTail` before the final terminal boundary line. -/
def frontLogical (b : List Char) : List RPart → List (List Char)
  | [] => []
  | [p] => partLines p
  | p :: ps => partLines p ++ nextPart b :: frontLogical b ps

/-- Join logical lines with a terminator between consecutive lines (the final
line gets none), producing the raw body bytes. -/
def joinLines (nl : List Char) : List (List Char) → List Char
  | [] => []
  | [l] => l
  | l :: l2 :: ls => l ++ nl ++ joinLines nl (l2 :: ls)

/-- Render an abstract body to raw bytes with terminator convention `nl`. -/
def renderBody (nl b : List Char) (parts : List RPart) : List Char :=
  joinLines nl (bodyLogical b parts)

/-- The raw lines the part loop consumes for a rendered body: every line
carries `nl` except the final terminal boundary. -/
def rawTail (nl b : List Char) : List RPart → List (List Char)
  | [] => [lastPart b]
  | [p] => (partLines p).map (· ++ nl) ++ [lastPart b]
  | p :: ps => (partLines p).map (· ++ nl) ++ (nextPart b ++ nl) :: rawTail nl b ps

/-- The chunks `readBody` commits for a part's value lines: every line keeps
its terminator except the last, which the following boundary owns. -/
def chunksOf (nl : List Char) : List (List Char) → List (List Char)
  | [] => []
  | [v] => [v]
  | v :: vs => (v ++ nl) :: chunksOf nl vs

/-- Header parsing at the logical level: every line terminated, block closed
by a blank line. -/
def pmhLogical (hlines : List (List Char)) : Except Err Headers :=
  pmhCore [] ((hlines ++ [[]]).map (fun l => (l, true)))

/-- Logical-level processing of one part, mirroring one iteration of the part
loop: header block, disposition name, decode, storage, classification. -/
def processPart (nl : List Char) (limit : Option Nat) (p : RPart)
    (form : Form) (files : Files) : Except Err (Form × Files) :=
  match pmhLogical p.hlines with
  | .error e => .error e
  | .ok hs =>
    match dispositionName hs with
    | none => .error .configurationError
    | some name =>
      let filename := dispositionFilename hs
      match decodeChunks (transferEncoding hs) (chunksOf nl p.vlines) with
      | none => .error .protocolViolation
      | some decoded =>
        match writeAll filename.isSome limit decoded with
        | .error e => .error e
        | .ok st => .ok (insertPart name filename hs st form files)

/-- Logical-level processing of a whole body's parts in order. -/
def processParts (nl : List Char) (limit : Option Nat) :
    List RPart → Form → Files → Except Err (Form × Files)
  | [], form, files => .ok (form, files)
  | p :: ps, form, files =>
    match processPart nl limit p form files with
    | .error e => .error e
    | .ok res => processParts nl limit ps res.1 res.2

/-- A part whose lines can be rendered unambiguously: header lines are clean
and non-blank, value lines are clean and are not boundary lookalikes. -/
def goodPart (nx la : List Char) (p : RPart) : Prop :=
  (∀ l ∈ p.hlines, cleanLine l ∧ l ≠ []) ∧
  (∀ v ∈ p.vlines, cleanLine v ∧ v ≠ nx ∧ v ≠ la)

/-- All parts of a body are renderable against boundary `b`. -/
def goodParts (b : List Char) (parts : List RPart) : Prop :=
  ∀ p ∈ parts, goodPart (nextPart b) (lastPart b) p

instance (nl : List Char) : Decidable (termStr nl) := by
  unfold termStr
  infer_instance

instance (nx la : List Char) (p : RPart) : Decidable (goodPart nx la p) := by
  unfold goodPart
  exact instDecidableAnd

instance (b : List Char) (parts : List RPart) : Decidable (goodParts b parts) := by
  unfold goodParts
  exact List.decidableBAll _ parts

/-! ## Line-level lemmas -/

theorem cleanLine_getLast_ne {l : List Char} (h : cleanLine l) (c : Char)
    (hc : ¬ cleanChar c) : l.getLast? ≠ some c := by
  intro hlast
  have hmem : c ∈ l := List.mem_of_mem_getLast? (by simp [hlast])
  have := List.all_eq_true.mp h c hmem
  exact hc this

theorem cleanChar_cr : ¬ cleanChar '\r' := by decide

theorem cleanChar_lf : ¬ cleanChar '\n' := by decide

theorem lineParse_clean {l : List Char} (h : cleanLine l) :
    lineParse l = (l, false) := by
  unfold lineParse
  rw [if_neg (cleanLine_getLast_ne h '\n' cleanChar_lf),
      if_neg (cleanLine_getLast_ne h '\r' cleanChar_cr)]

theorem lineParse_append_term {l nl : List Char} (hl : cleanLine l)
    (hnl : termStr nl) : lineParse (l ++ nl) = (l, true) := by
  rcases hnl with h | h | h <;> subst h <;> unfold lineParse
  · have h1 : (l ++ ['\r', '\n']).getLast? = some '\n' := by
      rw [show l ++ ['\r', '\n'] = (l ++ ['\r']) ++ ['\n'] by simp]
      exact List.getLast?_concat _
    have h2 : (l ++ ['\r', '\n']).dropLast = l ++ ['\r'] := by
      rw [show l ++ ['\r', '\n'] = (l ++ ['\r']) ++ ['\n'] by simp]
      exact List.dropLast_concat
    rw [if_pos h1, h2, if_pos (List.getLast?_concat _), List.dropLast_concat]
  · rw [if_neg (by rw [List.getLast?_concat]; intro h; cases h),
        if_pos (List.getLast?_concat _), List.dropLast_concat]
  · rw [if_pos (List.getLast?_concat _), List.dropLast_concat,
        if_neg (cleanLine_getLast_ne hl '\r' cleanChar_cr)]

theorem stripLine_clean {l : List Char} (h : cleanLine l) : stripLine l = l := by
  simp [stripLine, lineParse_clean h]

theorem stripLine_append_term {l nl : List Char} (hl : cleanLine l)
    (hnl : termStr nl) : stripLine (l ++ nl) = l := by
  simp [stripLine, lineParse_append_term hl hnl]

theorem lineParse_term {nl : List Char} (hnl : termStr nl) :
    lineParse nl = ([], true) := by
  rcases hnl with h | h | h <;> subst h <;> decide

/-! ## Splitting rendered bodies back into lines -/

theorem cleanChar_spec {c : Char} (h : cleanChar c = true) :
    c ≠ '\r' ∧ c ≠ '\n' := by
  simpa [cleanChar] using h

theorem cleanLine_cons {c : Char} {rest : List Char}
    (h : cleanLine (c :: rest)) : cleanChar c = true ∧ cleanLine rest := by
  simpa [cleanLine] using h

theorem splitLinesAux_clean : ∀ (cs acc : List Char), cleanLine cs →
    splitLinesAux acc cs =
      if acc = [] ∧ cs = [] then [] else [acc.reverse ++ cs]
  | [], acc, _ => by
    simp [splitLinesAux, List.isEmpty_iff]
  | c :: rest, acc, h => by
    obtain ⟨hc, hrest⟩ := cleanLine_cons h
    obtain ⟨hcr, hlf⟩ := cleanChar_spec hc
    rw [splitLinesAux.eq_def]
    simp only [if_neg hcr, if_neg hlf]
    rw [splitLinesAux_clean rest (c :: acc) hrest]
    simp

theorem splitLinesAux_nil_nil : splitLinesAux [] [] = [] := by
  simp [splitLinesAux]

theorem splitLinesAux_term : ∀ (cs acc nl ds : List Char), cleanLine cs →
    termStr nl → (nl = ['\r'] → ds.head? ≠ some '\n') →
    splitLinesAux acc (cs ++ (nl ++ ds)) =
      (acc.reverse ++ cs ++ nl) :: splitLinesAux [] ds
  | [], acc, nl, ds, _, hnl, hcr => by
    rcases hnl with h | h | h <;> subst h
    · rw [show ([] : List Char) ++ (['\r', '\n'] ++ ds) = '\r' :: '\n' :: ds by simp]
      rw [splitLinesAux.eq_def]
      simp
    · match ds, hcr with
      | [], _ =>
        rw [show ([] : List Char) ++ (['\r'] ++ []) = '\r' :: ([] : List Char) by simp]
        rw [splitLinesAux.eq_def]
        simp [splitLinesAux_nil_nil]
      | d :: ds2, hcr =>
        have hd : ¬ d = '\n' := by
          intro h
          exact hcr rfl (by simp [h])
        rw [show ([] : List Char) ++ (['\r'] ++ d :: ds2) = '\r' :: d :: ds2 by simp]
        rw [splitLinesAux.eq_def]
        simp [hd]
    · rw [show ([] : List Char) ++ (['\n'] ++ ds) = '\n' :: ds by simp]
      rw [splitLinesAux.eq_def]
      simp
  | c :: cs, acc, nl, ds, h, hnl, hcr => by
    obtain ⟨hc, hrest⟩ := cleanLine_cons h
    obtain ⟨hcrr, hlf⟩ := cleanChar_spec hc
    rw [show (c :: cs) ++ (nl ++ ds) = c :: (cs ++ (nl ++ ds)) by simp]
    rw [splitLinesAux.eq_def]
    simp only [if_neg hcrr, if_neg hlf]
    rw [splitLinesAux_term cs (c :: acc) nl ds hrest hnl hcr]
    simp

theorem cleanLine_head_ne_lf {l : List Char} (h : cleanLine l) :
    l.head? ≠ some '\n' := by
  cases l with
  | nil => simp
  | cons c cs =>
    obtain ⟨hc, -⟩ := cleanLine_cons h
    obtain ⟨-, hlf⟩ := cleanChar_spec hc
    simpa using hlf

theorem joinLines_head_ne_lf {nl : List Char} (hnl : termStr nl)
    (hne : nl ≠ ['\n']) :
    ∀ {ls : List (List Char)}, (∀ l ∈ ls, cleanLine l) →
      (joinLines nl ls).head? ≠ some '\n'
  | [], _ => by simp [joinLines]
  | [l], h => by
    rw [joinLines]
    exact cleanLine_head_ne_lf (h l (by simp))
  | l :: l2 :: ls, h => by
    rw [joinLines]
    cases l with
    | nil =>
      rcases hnl with hh | hh | hh <;> subst hh
      · simp
      · simp
      · exact absurd rfl hne
    | cons c cs =>
      have hc := (cleanChar_spec (cleanLine_cons (h (c :: cs) (by simp))).1).2
      simpa using hc

theorem splitToLines_join :
    ∀ (front : List (List Char)) (lst nl : List Char), termStr nl →
      (∀ l ∈ front, cleanLine l) → cleanLine lst → lst ≠ [] →
      splitToLines (joinLines nl (front ++ [lst])) =
        front.map (· ++ nl) ++ [lst]
  | [], lst, nl, _, _, hc, hne => by
    rw [List.nil_append, joinLines, splitToLines,
        splitLinesAux_clean lst [] hc]
    simp [hne]
  | l :: front, lst, nl, hnl, hcf, hc, hne => by
    have hjoin : joinLines nl ((l :: front) ++ [lst]) =
        l ++ (nl ++ joinLines nl (front ++ [lst])) := by
      cases front <;> simp [joinLines]
    have hhead : nl = ['\r'] → (joinLines nl (front ++ [lst])).head? ≠ some '\n' := by
      intro hcr
      refine joinLines_head_ne_lf hnl (by simp [hcr]) ?_
      intro x hx
      rcases List.mem_append.mp hx with hx | hx
      · exact hcf x (by simp [hx])
      · simp only [List.mem_singleton] at hx
        exact hx ▸ hc
    rw [hjoin, splitToLines, splitLinesAux_term l [] nl _ (hcf l (by simp)) hnl hhead]
    rw [show splitLinesAux [] (joinLines nl (front ++ [lst])) =
          splitToLines (joinLines nl (front ++ [lst])) from rfl]
    rw [splitToLines_join front lst nl hnl (fun x hx => hcf x (by simp [hx])) hc hne]
    simp

/-! ## Machine phases on rendered input -/

theorem cleanLine_nextPart {b : List Char} (h : cleanLine b) :
    cleanLine (nextPart b) := by
  simp only [cleanLine, nextPart, List.all_cons, Bool.and_eq_true]
  exact ⟨by decide, by decide, h⟩

theorem cleanLine_lastPart {b : List Char} (h : cleanLine b) :
    cleanLine (lastPart b) := by
  simp only [cleanLine, lastPart, List.all_cons, List.all_append,
    Bool.and_eq_true]
  exact ⟨⟨by decide, by decide, h⟩, by decide⟩

theorem nextPart_ne_lastPart (b : List Char) : nextPart b ≠ lastPart b := by
  intro h
  have := congrArg List.length h
  simp [nextPart, lastPart] at this

theorem lastPart_ne_nil (b : List Char) : lastPart b ≠ [] := by
  simp [lastPart]

theorem stripLine_term {nl : List Char} (hnl : termStr nl) :
    stripLine nl = [] := by
  simp [stripLine, lineParse_term hnl]

theorem seekBoundary_render {b nl : List Char} (hb : cleanLine b)
    (hnl : termStr nl) (rest : List (List Char)) :
    seekBoundary (nextPart b) (lastPart b) ((nextPart b ++ nl) :: rest) =
      .ok (rest, false) := by
  rw [seekBoundary]
  rw [show stripLine (nextPart b ++ nl) = nextPart b from
    stripLine_append_term (cleanLine_nextPart hb) hnl]
  rw [if_neg (nextPart_ne_lastPart b), if_pos rfl]

theorem seekBoundary_notFound {nx la : List Char} :
    ∀ lines : List (List Char),
      (∀ l ∈ lines, stripLine l ≠ nx ∧ stripLine l ≠ la) →
      seekBoundary nx la lines = .error .protocolViolation
  | [], _ => rfl
  | l :: rest, h => by
    obtain ⟨hnx, hla⟩ := h l (by simp)
    rw [seekBoundary, if_neg hla, if_neg hnx]
    exact seekBoundary_notFound rest (fun x hx => h x (by simp [hx]))

theorem collectUntilBlank_render {nl : List Char} (hnl : termStr nl) :
    ∀ (hlines : List (List Char)) (rest : List (List Char)),
      (∀ l ∈ hlines, cleanLine l ∧ l ≠ []) →
      collectUntilBlank (hlines.map (· ++ nl) ++ nl :: rest) =
        some (hlines.map (· ++ nl) ++ [nl], rest)
  | [], rest, _ => by
    rw [List.map_nil, List.nil_append, collectUntilBlank,
        if_pos (by simp [stripLine_term hnl])]
    simp
  | l :: hlines, rest, h => by
    obtain ⟨hc, hne⟩ := h l (by simp)
    rw [List.map_cons, List.cons_append, collectUntilBlank,
        if_neg (by simp [stripLine_append_term hc hnl, hne]),
        collectUntilBlank_render hnl hlines rest (fun x hx => h x (by simp [hx]))]
    simp

theorem parse_multipart_headers_render {nl : List Char} (hnl : termStr nl)
    (hlines : List (List Char)) (h : ∀ l ∈ hlines, cleanLine l) :
    parse_multipart_headers (hlines.map (· ++ nl) ++ [nl]) =
      pmhLogical hlines := by
  unfold parse_multipart_headers pmhLogical
  congr 1
  rw [List.map_append, List.map_append, List.map_map]
  congr 1
  · exact List.map_congr_left (fun l hl => lineParse_append_term (h l hl) hnl)
  · simp [lineParse_term hnl]

theorem readBody_cons (nx la l : List Char) (rest : List (List Char)) :
    readBody nx la (l :: rest) =
      if stripLine l = la then .ok ([], true, rest)
      else if stripLine l = nx then .ok ([], false, rest)
      else
        match readBody nx la rest with
        | .error e => .error e
        | .ok (chunks, isLast, rem) =>
          .ok ((if boundaryNext nx la rest then stripLine l else l) :: chunks,
               isLast, rem) := by
  rw [readBody]

theorem readBody_render {b nl : List Char} (hb : cleanLine b)
    (hnl : termStr nl) :
    ∀ (vlines : List (List Char)) (bl : List Char)
      (rest : List (List Char)) (isLa : Bool),
      (∀ v ∈ vlines, cleanLine v ∧ v ≠ nextPart b ∧ v ≠ lastPart b) →
      stripLine bl = (if isLa then lastPart b else nextPart b) →
      readBody (nextPart b) (lastPart b) (vlines.map (· ++ nl) ++ bl :: rest) =
        .ok (chunksOf nl vlines, isLa, rest)
  | [], bl, rest, isLa, _, hbl => by
    rw [List.map_nil, List.nil_append, readBody_cons, hbl]
    cases isLa with
    | true => simp [chunksOf]
    | false => simp [chunksOf, nextPart_ne_lastPart b]
  | v :: vlines, bl, rest, isLa, h, hbl => by
    obtain ⟨hcv, hvnx, hvla⟩ := h v (by simp)
    have hsv : stripLine (v ++ nl) = v := stripLine_append_term hcv hnl
    have ih := readBody_render hb hnl vlines bl rest isLa
      (fun x hx => h x (by simp [hx])) hbl
    rw [List.map_cons, List.cons_append, readBody_cons, hsv,
        if_neg hvla, if_neg hvnx, ih]
    cases vlines with
    | nil =>
      have hb2 : boundaryNext (nextPart b) (lastPart b) (bl :: rest) = true := by
        cases isLa <;> simp [boundaryNext, hbl]
      simp [hb2, hsv, chunksOf]
    | cons v2 vs =>
      obtain ⟨hcv2, hv2nx, hv2la⟩ := h v2 (by simp)
      have hb2 : boundaryNext (nextPart b) (lastPart b)
          ((v2 ++ nl) :: (List.map (fun x => x ++ nl) vs ++ bl :: rest)) = false := by
        simp [boundaryNext, stripLine_append_term hcv2 hnl, hv2la, hv2nx]
      simp [hb2, chunksOf]

/-! ## The part loop -/

theorem multipartLoop_succ (nx la : List Char) (limit : Option Nat) (fuel : Nat)
    (lines : List (List Char)) (form : Form) (files : Files) :
    multipartLoop nx la limit (fuel + 1) lines form files =
      match collectUntilBlank lines with
      | none => some (.error .protocolViolation)
      | some (blk, rest) =>
        match parse_multipart_headers blk with
        | .error e => some (.error e)
        | .ok hs =>
          match dispositionName hs with
          | none => some (.error .configurationError)
          | some name =>
            match readBody nx la rest with
            | .error e => some (.error e)
            | .ok (chunks, isLast, rest2) =>
              match decodeChunks (transferEncoding hs) chunks with
              | none => some (.error .protocolViolation)
              | some decoded =>
                match writeAll (dispositionFilename hs).isSome limit decoded with
                | .error e => some (.error e)
                | .ok st =>
                  let res := insertPart name (dispositionFilename hs) hs st form files
                  if isLast then some (.ok res)
                  else multipartLoop nx la limit fuel rest2 res.1 res.2 := rfl

theorem multipartLoop_collectNone {lines : List (List Char)}
    (h1 : collectUntilBlank lines = none) (nx la : List Char)
    (limit : Option Nat) (n : Nat) (form : Form) (files : Files) :
    multipartLoop nx la limit (n + 1) lines form files =
      some (.error .protocolViolation) := by
  simp only [multipartLoop_succ, h1]

theorem multipartLoop_pmhErr {lines blk : List (List Char)}
    {rest : List (List Char)} {e : Err}
    (h1 : collectUntilBlank lines = some (blk, rest))
    (h2 : parse_multipart_headers blk = .error e) (nx la : List Char)
    (limit : Option Nat) (n : Nat) (form : Form) (files : Files) :
    multipartLoop nx la limit (n + 1) lines form files = some (.error e) := by
  simp only [multipartLoop_succ, h1, h2]

theorem multipartLoop_nameNone {lines blk : List (List Char)}
    {rest : List (List Char)} {hs : Headers}
    (h1 : collectUntilBlank lines = some (blk, rest))
    (h2 : parse_multipart_headers blk = .ok hs)
    (h3 : dispositionName hs = none) (nx la : List Char)
    (limit : Option Nat) (n : Nat) (form : Form) (files : Files) :
    multipartLoop nx la limit (n + 1) lines form files =
      some (.error .configurationError) := by
  simp only [multipartLoop_succ, h1, h2, h3]

theorem multipartLoop_readErr {lines blk : List (List Char)}
    {rest : List (List Char)} {hs : Headers} {name : List Char} {e : Err}
    {nx la : List Char}
    (h1 : collectUntilBlank lines = some (blk, rest))
    (h2 : parse_multipart_headers blk = .ok hs)
    (h3 : dispositionName hs = some name)
    (h4 : readBody nx la rest = .error e)
    (limit : Option Nat) (n : Nat) (form : Form) (files : Files) :
    multipartLoop nx la limit (n + 1) lines form files = some (.error e) := by
  simp only [multipartLoop_succ, h1, h2, h3, h4]

theorem multipartLoop_decodeNone {lines blk : List (List Char)}
    {rest rest2 : List (List Char)} {hs : Headers} {name : List Char}
    {chunks : List (List Char)} {isLast : Bool} {nx la : List Char}
    (h1 : collectUntilBlank lines = some (blk, rest))
    (h2 : parse_multipart_headers blk = .ok hs)
    (h3 : dispositionName hs = some name)
    (h4 : readBody nx la rest = .ok (chunks, isLast, rest2))
    (h5 : decodeChunks (transferEncoding hs) chunks = none)
    (limit : Option Nat) (n : Nat) (form : Form) (files : Files) :
    multipartLoop nx la limit (n + 1) lines form files =
      some (.error .protocolViolation) := by
  simp only [multipartLoop_succ, h1, h2, h3, h4, h5]

theorem multipartLoop_writeErr {lines blk : List (List Char)}
    {rest rest2 : List (List Char)} {hs : Headers} {name : List Char}
    {chunks dec : List (List Char)} {isLast : Bool} {nx la : List Char}
    {limit : Option Nat} {e : Err}
    (h1 : collectUntilBlank lines = some (blk, rest))
    (h2 : parse_multipart_headers blk = .ok hs)
    (h3 : dispositionName hs = some name)
    (h4 : readBody nx la rest = .ok (chunks, isLast, rest2))
    (h5 : decodeChunks (transferEncoding hs) chunks = some dec)
    (h6 : writeAll (dispositionFilename hs).isSome limit dec = .error e)
    (n : Nat) (form : Form) (files : Files) :
    multipartLoop nx la limit (n + 1) lines form files = some (.error e) := by
  simp only [multipartLoop_succ, h1, h2, h3, h4, h5, h6]

theorem multipartLoop_run {lines blk : List (List Char)}
    {rest rest2 : List (List Char)} {hs : Headers} {name : List Char}
    {chunks dec : List (List Char)} {isLast : Bool} {nx la : List Char}
    {limit : Option Nat} {st : Storage}
    (h1 : collectUntilBlank lines = some (blk, rest))
    (h2 : parse_multipart_headers blk = .ok hs)
    (h3 : dispositionName hs = some name)
    (h4 : readBody nx la rest = .ok (chunks, isLast, rest2))
    (h5 : decodeChunks (transferEncoding hs) chunks = some dec)
    (h6 : writeAll (dispositionFilename hs).isSome limit dec = .ok st)
    (n : Nat) (form : Form) (files : Files) :
    multipartLoop nx la limit (n + 1) lines form files =
      (if isLast then
        some (.ok (insertPart name (dispositionFilename hs) hs st form files))
       else
        multipartLoop nx la limit n rest2
          (insertPart name (dispositionFilename hs) hs st form files).1
          (insertPart name (dispositionFilename hs) hs st form files).2) := by
  simp only [multipartLoop_succ, h1, h2, h3, h4, h5, h6]

theorem collectUntilBlank_length :
    ∀ (lines blk rest : List (List Char)),
      collectUntilBlank lines = some (blk, rest) → rest.length < lines.length
  | [], _, _, h => by simp [collectUntilBlank] at h
  | l :: ls, blk, rest, h => by
    rw [collectUntilBlank] at h
    by_cases hb : (stripLine l).isEmpty
    · rw [if_pos hb] at h
      injection h with h
      injection h with _ h
      subst h
      simp
    · rw [if_neg hb] at h
      cases hc : collectUntilBlank ls with
      | none => rw [hc] at h; cases h
      | some p =>
        obtain ⟨blk2, rest2⟩ := p
        rw [hc] at h
        injection h with h
        injection h with _ h
        subst h
        have := collectUntilBlank_length ls blk2 rest2 hc
        simp only [List.length_cons]
        omega

theorem readBody_length {nx la : List Char} :
    ∀ (lines : List (List Char)) (chunks : List (List Char)) (isLast : Bool)
      (rest : List (List Char)),
      readBody nx la lines = .ok (chunks, isLast, rest) →
      rest.length < lines.length
  | [], _, _, _, h => by simp [readBody] at h
  | l :: ls, chunks, isLast, rest, h => by
    rw [readBody_cons] at h
    by_cases h1 : stripLine l = la
    · rw [if_pos h1] at h
      injection h with h
      injection h with _ h
      injection h with _ h
      subst h
      simp
    · rw [if_neg h1] at h
      by_cases h2 : stripLine l = nx
      · rw [if_pos h2] at h
        injection h with h
        injection h with _ h
        injection h with _ h
        subst h
        simp
      · rw [if_neg h2] at h
        cases hr : readBody nx la ls with
        | error e => rw [hr] at h; cases h
        | ok t =>
          obtain ⟨c2, f2, r2⟩ := t
          rw [hr] at h
          injection h with h
          injection h with _ h
          injection h with _ h
          subst h
          have := readBody_length ls c2 f2 r2 hr
          simp only [List.length_cons]
          omega

/-- The part loop always terminates within fuel equal to the number of
remaining input lines: each iteration consumes at least two lines. -/
theorem multipartLoop_fuel {nx la : List Char} {limit : Option Nat} :
    ∀ (fuel : Nat) (lines : List (List Char)) (form : Form) (files : Files),
      lines.length < fuel →
      multipartLoop nx la limit fuel lines form files ≠ none := by
  intro fuel
  induction fuel with
  | zero => intro lines _ _ h; omega
  | succ n ih =>
    intro lines form files hlen
    cases hc : collectUntilBlank lines with
    | none => rw [multipartLoop_collectNone hc]; simp
    | some p =>
      obtain ⟨blk, rest⟩ := p
      cases hp : parse_multipart_headers blk with
      | error e => rw [multipartLoop_pmhErr hc hp]; simp
      | ok hs =>
        cases hn : dispositionName hs with
        | none => rw [multipartLoop_nameNone hc hp hn]; simp
        | some name =>
          cases hr : readBody nx la rest with
          | error e => rw [multipartLoop_readErr hc hp hn hr]; simp
          | ok t =>
            obtain ⟨chunks, isLast, rest2⟩ := t
            cases hd : decodeChunks (transferEncoding hs) chunks with
            | none => rw [multipartLoop_decodeNone hc hp hn hr hd]; simp
            | some dec =>
              cases hw : writeAll (dispositionFilename hs).isSome limit dec with
              | error e => rw [multipartLoop_writeErr hc hp hn hr hd hw]; simp
              | ok st =>
                rw [multipartLoop_run hc hp hn hr hd hw]
                cases isLast with
                | true => simp
                | false =>
                  have l1 := collectUntilBlank_length lines blk rest hc
                  have l2 := readBody_length rest chunks false rest2 hr
                  have hrec := ih rest2
                    (insertPart name (dispositionFilename hs) hs st form files).1
                    (insertPart name (dispositionFilename hs) hs st form files).2
                    (by omega)
                  simpa using hrec

theorem rawTail_single (nl b : List Char) (p : RPart) :
    rawTail nl b [p] =
      p.hlines.map (· ++ nl) ++ nl :: (p.vlines.map (· ++ nl) ++ [lastPart b]) := by
  simp [rawTail, partLines]

theorem rawTail_cons (nl b : List Char) (p q : RPart) (ps : List RPart) :
    rawTail nl b (p :: q :: ps) =
      p.hlines.map (· ++ nl) ++ nl ::
        (p.vlines.map (· ++ nl) ++ (nextPart b ++ nl) :: rawTail nl b (q :: ps)) := by
  simp [rawTail, partLines]

/-- The part loop on a rendered body computes exactly the logical processing
of its abstract parts. -/
theorem multipartLoop_render {b nl : List Char} (hb : cleanLine b)
    (hnl : termStr nl) (limit : Option Nat) :
    ∀ (parts : List RPart) (fuel : Nat) (form : Form) (files : Files),
      parts ≠ [] → goodParts b parts →
      (rawTail nl b parts).length < fuel →
      multipartLoop (nextPart b) (lastPart b) limit fuel
          (rawTail nl b parts) form files =
        some (processParts nl limit parts form files)
  | [], _, _, _, hne, _, _ => absurd rfl hne
  | [p], fuel, form, files, _, hg, hlen => by
    obtain ⟨hh, hv⟩ := hg p (by simp)
    rw [rawTail_single] at hlen ⊢
    cases fuel with
    | zero => exact absurd hlen (Nat.not_lt_zero _)
    | succ n =>
      have hcol := collectUntilBlank_render hnl p.hlines
        (p.vlines.map (· ++ nl) ++ [lastPart b]) hh
      have hpmh := parse_multipart_headers_render hnl p.hlines
        (fun l hl => (hh l hl).1)
      have hread := readBody_render hb hnl p.vlines (lastPart b) [] true hv
        (by simp [stripLine_clean (cleanLine_lastPart hb)])
      cases hph : pmhLogical p.hlines with
      | error e =>
        rw [multipartLoop_pmhErr hcol (by rw [hpmh, hph])]
        simp [processParts, processPart, hph]
      | ok hs =>
        cases hdn : dispositionName hs with
        | none =>
          rw [multipartLoop_nameNone hcol (by rw [hpmh, hph]) hdn]
          simp [processParts, processPart, hph, hdn]
        | some name =>
          cases hdc : decodeChunks (transferEncoding hs) (chunksOf nl p.vlines) with
          | none =>
            rw [multipartLoop_decodeNone hcol (by rw [hpmh, hph]) hdn hread hdc]
            simp [processParts, processPart, hph, hdn, hdc]
          | some dec =>
            cases hwa : writeAll (dispositionFilename hs).isSome limit dec with
            | error e =>
              rw [multipartLoop_writeErr hcol (by rw [hpmh, hph]) hdn hread hdc hwa]
              simp [processParts, processPart, hph, hdn, hdc, hwa]
            | ok st =>
              rw [multipartLoop_run hcol (by rw [hpmh, hph]) hdn hread hdc hwa]
              simp [processParts, processPart, hph, hdn, hdc, hwa]
  | p :: q :: ps, fuel, form, files, _, hg, hlen => by
    obtain ⟨hh, hv⟩ := hg p (by simp)
    rw [rawTail_cons] at hlen ⊢
    cases fuel with
    | zero => exact absurd hlen (Nat.not_lt_zero _)
    | succ n =>
      have hcol := collectUntilBlank_render hnl p.hlines
        (p.vlines.map (· ++ nl) ++ (nextPart b ++ nl) :: rawTail nl b (q :: ps)) hh
      have hpmh := parse_multipart_headers_render hnl p.hlines
        (fun l hl => (hh l hl).1)
      have hread := readBody_render hb hnl p.vlines (nextPart b ++ nl)
        (rawTail nl b (q :: ps)) false hv
        (by simp [stripLine_append_term (cleanLine_nextPart hb) hnl])
      cases hph : pmhLogical p.hlines with
      | error e =>
        rw [multipartLoop_pmhErr hcol (by rw [hpmh, hph])]
        simp [processParts, processPart, hph]
      | ok hs =>
        cases hdn : dispositionName hs with
        | none =>
          rw [multipartLoop_nameNone hcol (by rw [hpmh, hph]) hdn]
          simp [processParts, processPart, hph, hdn]
        | some name =>
          cases hdc : decodeChunks (transferEncoding hs) (chunksOf nl p.vlines) with
          | none =>
            rw [multipartLoop_decodeNone hcol (by rw [hpmh, hph]) hdn hread hdc]
            simp [processParts, processPart, hph, hdn, hdc]
          | some dec =>
            cases hwa : writeAll (dispositionFilename hs).isSome limit dec with
            | error e =>
              rw [multipartLoop_writeErr hcol (by rw [hpmh, hph]) hdn hread hdc hwa]
              simp [processParts, processPart, hph, hdn, hdc, hwa]
            | ok st =>
              rw [multipartLoop_run hcol (by rw [hpmh, hph]) hdn hread hdc hwa]
              have hlen2 : (rawTail nl b (q :: ps)).length < n := by
                simp only [List.length_append, List.length_cons,
                  List.length_map] at hlen
                omega
              rw [if_neg (by simp)]
              rw [multipartLoop_render hb hnl limit (q :: ps) n _ _ (by simp)
                (fun x hx => hg x (by simp [hx])) hlen2]
              simp [processParts, processPart, hph, hdn, hdc, hwa]

theorem logicalTail_eq_front (b : List Char) :
    ∀ parts : List RPart,
      logicalTail b parts = frontLogical b parts ++ [lastPart b]
  | [] => by simp [logicalTail, frontLogical]
  | [p] => by simp [logicalTail, frontLogical]
  | p :: q :: ps => by
    rw [show logicalTail b (p :: q :: ps) =
          partLines p ++ nextPart b :: logicalTail b (q :: ps) from rfl,
        show frontLogical b (p :: q :: ps) =
          partLines p ++ nextPart b :: frontLogical b (q :: ps) from rfl,
        logicalTail_eq_front b (q :: ps)]
    simp

theorem rawTail_eq_front (nl b : List Char) :
    ∀ parts : List RPart,
      rawTail nl b parts = (frontLogical b parts).map (· ++ nl) ++ [lastPart b]
  | [] => by simp [rawTail, frontLogical]
  | [p] => by simp [rawTail, frontLogical]
  | p :: q :: ps => by
    rw [show rawTail nl b (p :: q :: ps) =
          (partLines p).map (· ++ nl) ++
            (nextPart b ++ nl) :: rawTail nl b (q :: ps) from rfl,
        show frontLogical b (p :: q :: ps) =
          partLines p ++ nextPart b :: frontLogical b (q :: ps) from rfl,
        rawTail_eq_front nl b (q :: ps)]
    simp

theorem frontLogical_clean {b : List Char} (hb : cleanLine b) :
    ∀ {parts : List RPart}, goodParts b parts →
      ∀ l ∈ frontLogical b parts, cleanLine l
  | [], _, l, hl => by simp [frontLogical] at hl
  | [p], hg, l, hl => by
    rw [frontLogical] at hl
    obtain ⟨hh, hv⟩ := hg p (by simp)
    rcases (by simpa [partLines] using hl :
        l ∈ p.hlines ∨ l = [] ∨ l ∈ p.vlines) with h | h | h
    · exact (hh l h).1
    · subst h; rfl
    · exact (hv l h).1
  | p :: q :: ps, hg, l, hl => by
    rw [show frontLogical b (p :: q :: ps) =
          partLines p ++ nextPart b :: frontLogical b (q :: ps) from rfl] at hl
    obtain ⟨hh, hv⟩ := hg p (by simp)
    rcases List.mem_append.mp hl with h | h
    · rcases (by simpa [partLines] using h :
          l ∈ p.hlines ∨ l = [] ∨ l ∈ p.vlines) with h | h | h
      · exact (hh l h).1
      · subst h; rfl
      · exact (hv l h).1
    · rcases List.mem_cons.mp h with h | h
      · subst h; exact cleanLine_nextPart hb
      · exact frontLogical_clean hb (fun x hx => hg x (by simp [hx])) l h

/-- Splitting a rendered body recovers its raw lines: the leading boundary
line and the rendered tail. -/
theorem splitToLines_renderBody {b nl : List Char} (hb : cleanLine b)
    (hnl : termStr nl) {parts : List RPart} (hg : goodParts b parts) :
    splitToLines (renderBody nl b parts) =
      (nextPart b ++ nl) :: rawTail nl b parts := by
  have hfront : ∀ l ∈ nextPart b :: frontLogical b parts, cleanLine l := by
    intro l hl
    rcases List.mem_cons.mp hl with h | h
    · subst h; exact cleanLine_nextPart hb
    · exact frontLogical_clean hb hg l h
  have hjoin : renderBody nl b parts =
      joinLines nl ((nextPart b :: frontLogical b parts) ++ [lastPart b]) := by
    rw [renderBody, bodyLogical, logicalTail_eq_front]
    simp
  rw [hjoin, splitToLines_join (nextPart b :: frontLogical b parts)
      (lastPart b) nl hnl hfront (cleanLine_lastPart hb) (lastPart_ne_nil b),
      rawTail_eq_front]
  simp

/-- The multipart parser on a rendered body equals the logical processing of
its parts. -/
theorem multipartParse_render {b nl : List Char} (hb : cleanLine b)
    (hvb : validBoundary b) (hnl : termStr nl) (limit : Option Nat)
    {parts : List RPart} (hne : parts ≠ []) (hg : goodParts b parts) :
    multipartParse b limit (splitToLines (renderBody nl b parts)) =
      processParts nl limit parts [] [] := by
  rw [splitToLines_renderBody hb hnl hg]
  have hloop := multipartLoop_render hb hnl limit parts
    ((rawTail nl b parts).length + 1) [] [] hne hg (Nat.lt_succ_self _)
  simp only [multipartParse, hvb, not_true, if_false,
    seekBoundary_render hb hnl, hloop]

/-! ## Storage lemmas -/

theorem foldl_appendChunk_none (isFile : Bool) :
    ∀ (chunks : List (List Char)) (d : List Char),
      List.foldlM (appendChunk isFile none) (Storage.memory d) chunks =
        .ok (.memory (d ++ chunks.flatten))
  | [], d => by
    show (Except.ok (Storage.memory d) : Except Err Storage) = _
    simp
  | c :: cs, d => by
    rw [List.foldlM_cons]
    rw [show appendChunk isFile none (Storage.memory d) c =
      .ok (.memory (d ++ c)) from rfl]
    rw [show ((Except.ok (Storage.memory (d ++ c)) :
        Except Err Storage) >>= fun s =>
        List.foldlM (appendChunk isFile none) s cs) =
      List.foldlM (appendChunk isFile none) (Storage.memory (d ++ c)) cs from rfl]
    rw [foldl_appendChunk_none isFile cs (d ++ c)]
    simp

theorem writeAll_noLimit (isFile : Bool) (chunks : List (List Char)) :
    writeAll isFile none chunks = .ok (.memory chunks.flatten) := by
  rw [writeAll, foldl_appendChunk_none]
  simp

theorem chunksOf_flatten (nl : List Char) :
    ∀ vs : List (List Char), (chunksOf nl vs).flatten = joinLines nl vs
  | [] => by simp [chunksOf, joinLines]
  | [v] => by simp [chunksOf, joinLines]
  | v :: v2 :: vs => by
    rw [chunksOf, joinLines, List.flatten_cons, chunksOf_flatten nl (v2 :: vs)]
    simp

theorem appendChunk_text_some (m : Nat) (d c : List Char) :
    appendChunk false (some m) (Storage.memory d) c =
      if (d ++ c).length > m then .error .entityTooLarge
      else .ok (.memory (d ++ c)) := by
  by_cases hx : (d ++ c).length > m <;>
    simp [appendChunk, Storage.data, Storage.withData, hx]

/-- A non-file field's storage is never spooled: every successful write
sequence leaves it in memory. -/
theorem foldl_appendChunk_text_memory {limit : Option Nat} :
    ∀ (chunks : List (List Char)) (d : List Char) (st : Storage),
      List.foldlM (appendChunk false limit) (Storage.memory d) chunks =
        .ok st → ∃ d', st = .memory d'
  | [], d, st, h => by
    have h' : (Except.ok (Storage.memory d) : Except Err Storage) = .ok st := h
    exact ⟨d, (Except.ok.inj h').symm⟩
  | c :: cs, d, st, h => by
    rw [List.foldlM_cons] at h
    cases limit with
    | none =>
      rw [show appendChunk false none (Storage.memory d) c =
        .ok (.memory (d ++ c)) from rfl] at h
      exact foldl_appendChunk_text_memory cs (d ++ c) st h
    | some m =>
      rw [appendChunk_text_some] at h
      by_cases hlen : (d ++ c).length > m
      · rw [if_pos hlen] at h
        cases h
      · rw [if_neg hlen] at h
        exact foldl_appendChunk_text_memory cs (d ++ c) st h

theorem writeAll_text_memory {limit : Option Nat} {chunks : List (List Char)}
    {st : Storage} (h : writeAll false limit chunks = .ok st) :
    ∃ d, st = .memory d := by
  rw [writeAll] at h
  exact foldl_appendChunk_text_memory chunks [] st h

/-- A non-file field whose total size exceeds the memory limit fails with
entity-too-large. -/
theorem foldl_appendChunk_text_tooBig {m : Nat} :
    ∀ (chunks : List (List Char)) (d : List Char),
      d.length ≤ m → d.length + chunks.flatten.length > m →
      List.foldlM (appendChunk false (some m)) (Storage.memory d) chunks =
        .error .entityTooLarge
  | [], d, hle, hgt => by
    simp at hgt
    omega
  | c :: cs, d, hle, hgt => by
    rw [List.foldlM_cons, appendChunk_text_some]
    by_cases hlen : (d ++ c).length > m
    · rw [if_pos hlen]
      rfl
    · rw [if_neg hlen]
      have hrec := @foldl_appendChunk_text_tooBig m cs (d ++ c)
        (by simp only [List.length_append] at hlen ⊢; omega)
        (by
          have hflat : ((c :: cs).flatten).length =
              c.length + (cs.flatten).length := by simp
          simp only [List.length_append]
          omega)
      rw [show ((Except.ok (Storage.memory (d ++ c)) : Except Err Storage) >>=
          fun s => List.foldlM (appendChunk false (some m)) s cs) =
        List.foldlM (appendChunk false (some m)) (Storage.memory (d ++ c)) cs
          from rfl]
      exact hrec

theorem writeAll_text_tooBig {m : Nat} {chunks : List (List Char)}
    (h : chunks.flatten.length > m) :
    writeAll false (some m) chunks = .error .entityTooLarge := by
  rw [writeAll]
  exact foldl_appendChunk_text_tooBig chunks [] (by simp) (by simpa using h)

/-! ## Driver-level lemmas -/

theorem readBody_noBoundary {nx la : List Char} :
    ∀ lines : List (List Char),
      (∀ l ∈ lines, stripLine l ≠ nx ∧ stripLine l ≠ la) →
      readBody nx la lines = .error .protocolViolation
  | [], _ => rfl
  | l :: ls, h => by
    obtain ⟨hnx, hla⟩ := h l (by simp)
    rw [readBody_cons, if_neg hla, if_neg hnx,
        readBody_noBoundary ls (fun x hx => h x (by simp [hx]))]

theorem validBoundary_ws {b : List Char} (h : b.all isWSChar) :
    validBoundary b = false := by
  rw [validBoundary]
  cases hr : b.reverse with
  | nil => rfl
  | cons c cs =>
    have hc : c ∈ b := by
      rw [show b = b.reverse.reverse by simp, hr]
      simp
    have := List.all_eq_true.mp h c hc
    simp [this]

theorem parse_form_data_multipart {b body : List Char} {mcl mfms : Option Nat}
    (h : tooLong ⟨mcl, mfms⟩ body = false) (silent : Bool) :
    parse_form_data (.multipart b) body ⟨mcl, mfms⟩ silent =
      handleErrors silent (multipartParse b mfms (splitToLines body)) := by
  simp [parse_form_data, h]

theorem parse_form_data_urlenc {body : List Char} {mcl mfms : Option Nat}
    (h : tooLong ⟨mcl, mfms⟩ body = false) (silent : Bool) :
    parse_form_data .urlencoded body ⟨mcl, mfms⟩ silent =
      handleErrors silent (urlencodedParse mfms body) := by
  simp [parse_form_data, h]

theorem handleErrors_strict (r : Except Err (Form × Files)) :
    handleErrors false r = r := by
  cases r with
  | ok v => rfl
  | error e => cases e <;> rfl

theorem tooLong_none (mfms : Option Nat) (body : List Char) :
    tooLong ⟨none, mfms⟩ body = false := rfl

theorem chunksOf_short {nl nl' : List Char} :
    ∀ vs : List (List Char), vs.length ≤ 1 → chunksOf nl vs = chunksOf nl' vs
  | [], _ => rfl
  | [_], _ => rfl
  | _ :: _ :: _, h => by simp at h

/-- Logical processing does not depend on the terminator convention when
every part's value is a single line. -/
theorem processParts_nl_inv {nl nl' : List Char} {limit : Option Nat} :
    ∀ (parts : List RPart) (form : Form) (files : Files),
      (∀ p ∈ parts, p.vlines.length ≤ 1) →
      processParts nl limit parts form files =
        processParts nl' limit parts form files
  | [], _, _, _ => rfl
  | p :: ps, form, files, h => by
    rw [processParts, processParts,
        show processPart nl limit p form files =
          processPart nl' limit p form files by
            rw [processPart, processPart, chunksOf_short p.vlines (h p (by simp))]]
    cases processPart nl' limit p form files with
    | error e => rfl
    | ok res => exact processParts_nl_inv ps res.1 res.2 (fun x hx => h x (by simp [hx]))

/-- Logical processing of plain text parts (no filename, no transfer
encoding) collects each part's value — its lines joined by the terminator —
into the form, in order. -/
theorem processParts_success {nl : List Char} :
    ∀ (parts : List (RPart × List Char)) (form : Form) (files : Files),
      (∀ q ∈ parts, ∃ hs, pmhLogical q.1.hlines = .ok hs ∧
        dispositionName hs = some q.2 ∧ dispositionFilename hs = none ∧
        transferEncoding hs = none) →
      processParts nl none (parts.map Prod.fst) form files =
        .ok (parts.foldl
          (fun f q => addAssoc f q.2 (joinLines nl q.1.vlines)) form, files)
  | [], form, files, _ => rfl
  | (p, name) :: ps, form, files, h => by
    obtain ⟨hs, hpmh, hname, hfile, henc⟩ := h (p, name) (by simp)
    rw [List.map_cons, processParts,
        show processPart nl none p form files =
          .ok (addAssoc form name (joinLines nl p.vlines), files) by
          simp only [processPart, hpmh, hname, henc, hfile,
            show ∀ x : List (List Char), decodeChunks none x = some x from
              fun _ => rfl,
            Option.isSome_none, writeAll_noLimit, chunksOf_flatten,
            insertPart, Storage.data]]
    exact processParts_success ps _ files (fun x hx => h x (by simp [hx]))

theorem decodeChunks_base64_fail {enc v : List Char}
    (he : lowerStr enc = "base64".data) (hv : base64Decode v = none) :
    decodeChunks (some enc) [v] = none := by
  rw [decodeChunks, if_pos he]
  simp [List.mapM.loop, hv]

end Werkzeug

namespace Werkzeug

example : lineParse "foo".data = ("foo".data, false) := by decide
example : lineParse "foo\r\n".data = ("foo".data, true) := by decide
example : lineParse "foo\r".data = ("foo".data, true) := by decide
example : lineParse "foo\n".data = ("foo".data, true) := by decide
example : splitToLines "a\r\nb\rc\nd".data = ["a\r\n".data, "b\r".data, "c\n".data, "d".data] := by decide

/-! ## Claims -/

/-- C1: parsing the concrete two-field multipart body from the spec with
boundary `foo` yields `form = {foo: [this is just bar], bar: [blafasel]}`
and an empty files collection, in silent and strict mode alike. -/
theorem claim_C1 : ∀ silent : Bool,
    parse_form_data (.multipart "foo".data)
        ("--foo\r\nContent-Disposition: form-data; name=foo\r\n\r\nthis is just bar\r\n--foo\r\nContent-Disposition: form-data; name=bar\r\n\r\nblafasel\r\n--foo--").data
        ⟨none, none⟩ silent =
      .ok ([("foo".data, ["this is just bar".data]),
            ("bar".data, ["blafasel".data])], []) := by
  intro silent
  cases silent <;> decide

/-- C8: a folded continuation line appends its terminator-stripped content to
the previous header value joined by a single newline, preserving the
continuation's interior whitespace, and the resulting key is found by
case-insensitive lookup. -/
theorem claim_C8 :
    parse_multipart_headers ["foo: bar\r\n".data, " x test\r\n".data] =
        .ok [("foo".data, "bar\n x test".data)] ∧
      headerGet [("foo".data, "bar\n x test".data)] "foo".data =
        some "bar\n x test".data ∧
      headerGet [("foo".data, "bar\n x test".data)] "FOO".data =
        some "bar\n x test".data := by
  decide

/-- C9: multipart parsing terminates in time bounded by the input length —
the part loop, given fuel one more than the number of remaining lines, never
exhausts it, on every input (including bodies missing their terminal
boundary). -/
theorem claim_C9 (nx la : List Char) (limit : Option Nat)
    (lines : List (List Char)) (form : Form) (files : Files) :
    multipartLoop nx la limit (lines.length + 1) lines form files ≠ none :=
  multipartLoop_fuel (lines.length + 1) lines form files (Nat.lt_succ_self _)

/-- C3: a `max_content_length` smaller than the body size fails with
entity-too-large for multipart and urlencoded content types in every mode;
a limit at least the body size leaves parsing unchanged. -/
theorem claim_C3 (body b : List Char) (mfms : Option Nat) (silent : Bool)
    (m : Nat) :
    (m < body.length →
      parse_form_data (.multipart b) body ⟨some m, mfms⟩ silent =
          .error .entityTooLarge ∧
        parse_form_data .urlencoded body ⟨some m, mfms⟩ silent =
          .error .entityTooLarge) ∧
    (body.length ≤ m →
      parse_form_data (.multipart b) body ⟨some m, mfms⟩ silent =
          parse_form_data (.multipart b) body ⟨none, mfms⟩ silent ∧
        parse_form_data .urlencoded body ⟨some m, mfms⟩ silent =
          parse_form_data .urlencoded body ⟨none, mfms⟩ silent) := by
  constructor
  · intro hlt
    have ht : tooLong ⟨some m, mfms⟩ body = true := by
      simp [tooLong]
      omega
    constructor <;> simp [parse_form_data, ht]
  · intro hle
    have ht : tooLong ⟨some m, mfms⟩ body = false := by
      simp [tooLong]
      omega
    have ht2 : tooLong ⟨none, mfms⟩ body = false := rfl
    constructor <;> simp [parse_form_data, ht, ht2]

theorem claim_C3_witness :
    parse_form_data .urlencoded "foo=Hello+World&bar=baz".data
        ⟨some 4, none⟩ true = .error .entityTooLarge ∧
      parse_form_data .urlencoded "foo=Hello+World&bar=baz".data
          ⟨some 400, none⟩ true =
        parse_form_data .urlencoded "foo=Hello+World&bar=baz".data
          ⟨none, none⟩ true :=
  ⟨((claim_C3 "foo=Hello+World&bar=baz".data "foo".data none true 4).1
      (by decide)).2,
   ((claim_C3 "foo=Hello+World&bar=baz".data "foo".data none true 400).2
      (by decide)).2⟩

/-- C4: a text field (a multipart part without a filename, or a urlencoded
value) whose size exceeds `max_form_memory_size` fails with entity-too-large
even when `max_content_length` is not exceeded, and a non-file field's
storage is never spooled. -/
theorem claim_C4 :
    (∀ (b nl name v : List Char) (hlines : List (List Char)) (hs : Headers)
        (mcl : Option Nat) (m : Nat) (silent : Bool),
      cleanLine b → validBoundary b → termStr nl →
      goodParts b [⟨hlines, [v]⟩] →
      pmhLogical hlines = .ok hs →
      dispositionName hs = some name →
      dispositionFilename hs = none →
      transferEncoding hs = none →
      v.length > m →
      tooLong ⟨mcl, some m⟩ (renderBody nl b [⟨hlines, [v]⟩]) = false →
      parse_form_data (.multipart b) (renderBody nl b [⟨hlines, [v]⟩])
          ⟨mcl, some m⟩ silent = .error .entityTooLarge) ∧
    (∀ (body : List Char) (mcl : Option Nat) (m : Nat) (silent : Bool)
        (pr : List Char × List Char),
      pr ∈ (splitOnChar '&' body).map parsePair → pr.2.length > m →
      tooLong ⟨mcl, some m⟩ body = false →
      parse_form_data .urlencoded body ⟨mcl, some m⟩ silent =
        .error .entityTooLarge) ∧
    (∀ (limit : Option Nat) (chunks : List (List Char)) (st : Storage),
      writeAll false limit chunks = .ok st → ∃ d, st = .memory d) := by
  refine ⟨?_, ?_, ?_⟩
  · intro b nl name v hlines hs mcl m silent hb hvb hnl hg hpmh hname hfile
      henc hsize htool
    rw [parse_form_data_multipart htool silent,
        multipartParse_render hb hvb hnl (some m) (by simp) hg]
    rw [show processParts nl (some m) [(⟨hlines, [v]⟩ : RPart)] [] [] =
          .error .entityTooLarge by
      simp only [processParts, processPart, hpmh, hname, henc, hfile,
        show ∀ x : List (List Char), decodeChunks none x = some x from
          fun _ => rfl,
        Option.isSome_none]
      rw [show chunksOf nl (⟨hlines, [v]⟩ : RPart).vlines = [v] from rfl,
          writeAll_text_tooBig (by simpa using hsize)]]
    rfl
  · intro body mcl m silent pr hmem hgt htool
    rw [parse_form_data_urlenc htool silent]
    have hany : ((splitOnChar '&' body).map parsePair).any
        (fun p =>
          match (some m : Option Nat) with
          | some mm => p.2.length > mm
          | none => false) = true :=
      List.any_eq_true.mpr ⟨pr, hmem, by simpa using hgt⟩
    rw [show urlencodedParse (some m) body = .error .entityTooLarge by
      simp only [urlencodedParse, hany]
      rfl]
    rfl
  · intro limit chunks st h
    exact writeAll_text_memory h

theorem claim_C4_witness :
    parse_form_data (.multipart "foo".data)
        (renderBody ['\r', '\n'] "foo".data
          [⟨["Content-Disposition: form-field; name=foo".data],
            ["Hello World".data]⟩]) ⟨none, some 7⟩ true =
        .error .entityTooLarge ∧
      parse_form_data .urlencoded "foo=Hello+World&bar=baz".data
          ⟨none, some 7⟩ true = .error .entityTooLarge ∧
      (∃ d, Storage.memory "Hello World".data = Storage.memory d) :=
  ⟨claim_C4.1 "foo".data ['\r', '\n'] "foo".data "Hello World".data
      ["Content-Disposition: form-field; name=foo".data]
      [("Content-Disposition".data, "form-field; name=foo".data)] none 7 true
      (by decide) (by decide) (by simp [termStr]) (by decide) (by decide)
      (by decide) (by decide) (by decide) (by decide) (by decide),
   claim_C4.2.1 "foo=Hello+World&bar=baz".data none 7 true
      ("foo".data, "Hello World".data) (by decide) (by decide) (by decide),
   claim_C4.2.2 (some 400) ["Hello World".data]
      (.memory "Hello World".data) (by decide)⟩

/-- C7: an empty or whitespace-only boundary, and a part whose header block
yields no Content-Disposition name, are configuration failures in strict and
silent mode alike. -/
theorem claim_C7 :
    (∀ (b body : List Char) (mfms : Option Nat) (silent : Bool),
        b.all isWSChar →
        parse_form_data (.multipart b) body ⟨none, mfms⟩ silent =
          .error .configurationError) ∧
    (∀ (b nl : List Char) (p : RPart) (hs : Headers) (mcl mfms : Option Nat)
        (silent : Bool),
        cleanLine b → validBoundary b → termStr nl → goodParts b [p] →
        pmhLogical p.hlines = .ok hs → dispositionName hs = none →
        tooLong ⟨mcl, mfms⟩ (renderBody nl b [p]) = false →
        parse_form_data (.multipart b) (renderBody nl b [p]) ⟨mcl, mfms⟩
          silent = .error .configurationError) := by
  constructor
  · intro b body mfms silent hws
    rw [parse_form_data_multipart (tooLong_none mfms body) silent,
        show multipartParse b mfms (splitToLines body) =
          .error .configurationError by
        simp [multipartParse, validBoundary_ws hws]]
    rfl
  · intro b nl p hs mcl mfms silent hb hvb hnl hg hpmh hnone htool
    rw [parse_form_data_multipart htool silent,
        multipartParse_render hb hvb hnl mfms (by simp) hg,
        show processParts nl mfms [p] [] [] = .error .configurationError by
          simp only [processParts, processPart, hpmh, hnone]]
    rfl

theorem claim_C7_witness :
    parse_form_data (.multipart "  ".data) "abc".data ⟨none, none⟩ true =
        .error .configurationError ∧
      parse_form_data (.multipart "foo".data)
          (renderBody ['\r', '\n'] "foo".data [⟨[], ["Hello World".data]⟩])
          ⟨none, none⟩ true = .error .configurationError :=
  ⟨claim_C7.1 "  ".data "abc".data none true (by decide),
   claim_C7.2 "foo".data ['\r', '\n'] ⟨[], ["Hello World".data]⟩ [] none none
      true (by decide) (by decide) (by simp [termStr]) (by decide) (by decide)
      (by decide) (by decide)⟩

/-- C5: a stream that ends without the parser finding a boundary (no line is
a boundary at all, or the body of a part runs out before the next boundary)
is a protocol violation: strict mode fails with it, silent mode resets
everything to an empty form and empty files; and in general a strict-mode
protocol violation always becomes the empty result in silent mode — never a
partial one. -/
theorem claim_C5 :
    (∀ (b body : List Char) (mfms : Option Nat),
      validBoundary b →
      (∀ l ∈ splitToLines body,
        stripLine l ≠ nextPart b ∧ stripLine l ≠ lastPart b) →
      parse_form_data (.multipart b) body ⟨none, mfms⟩ false =
          .error .protocolViolation ∧
        parse_form_data (.multipart b) body ⟨none, mfms⟩ true = .ok ([], [])) ∧
    (∀ (ct : ContentType) (body : List Char) (limits : Limits),
      parse_form_data ct body limits false = .error .protocolViolation →
      parse_form_data ct body limits true = .ok ([], [])) ∧
    (∀ (b nl vlast : List Char) (hlines vs : List (List Char)) (hs : Headers)
        (name : List Char) (mfms : Option Nat),
      cleanLine b → validBoundary b → termStr nl →
      (∀ l ∈ hlines, cleanLine l ∧ l ≠ []) →
      (∀ v ∈ vs ++ [vlast],
        cleanLine v ∧ v ≠ nextPart b ∧ v ≠ lastPart b) →
      vlast ≠ [] →
      pmhLogical hlines = .ok hs → dispositionName hs = some name →
      parse_form_data (.multipart b)
          (joinLines nl ((nextPart b :: hlines ++ [] :: vs) ++ [vlast]))
          ⟨none, mfms⟩ false = .error .protocolViolation ∧
        parse_form_data (.multipart b)
          (joinLines nl ((nextPart b :: hlines ++ [] :: vs) ++ [vlast]))
          ⟨none, mfms⟩ true = .ok ([], [])) := by
  refine ⟨?_, ?_, ?_⟩
  · intro b body mfms hvb hnob
    have hm : multipartParse b mfms (splitToLines body) =
        .error .protocolViolation := by
      simp [multipartParse, hvb, seekBoundary_notFound _ hnob]
    rw [parse_form_data_multipart (tooLong_none mfms body) false, hm,
        parse_form_data_multipart (tooLong_none mfms body) true, hm]
    exact ⟨rfl, rfl⟩
  · intro ct body limits h
    cases ct with
    | other => simp [parse_form_data] at h
    | urlencoded =>
      by_cases ht : tooLong limits body
      · simp [parse_form_data, ht] at h
      · rw [show limits = ⟨limits.max_content_length, limits.max_form_memory_size⟩
            from rfl] at h ⊢
        rw [parse_form_data_urlenc (by simpa using ht) false,
            handleErrors_strict] at h
        rw [parse_form_data_urlenc (by simpa using ht) true, h]
        rfl
    | multipart b =>
      by_cases ht : tooLong limits body
      · simp [parse_form_data, ht] at h
      · rw [show limits = ⟨limits.max_content_length, limits.max_form_memory_size⟩
            from rfl] at h ⊢
        rw [parse_form_data_multipart (by simpa using ht) false,
            handleErrors_strict] at h
        rw [parse_form_data_multipart (by simpa using ht) true, h]
        rfl
  · intro b nl vlast hlines vs hs name mfms hb hvb hnl hh hv hvne hpmh hname
    have hvlastmem : cleanLine vlast ∧ vlast ≠ nextPart b ∧ vlast ≠ lastPart b :=
      hv vlast (by simp)
    have hfront : ∀ l ∈ nextPart b :: hlines ++ [] :: vs, cleanLine l := by
      intro l hl
      rcases List.mem_cons.mp hl with h | h
      · subst h; exact cleanLine_nextPart hb
      · rcases List.mem_append.mp h with h | h
        · exact (hh l h).1
        · rcases List.mem_cons.mp h with h | h
          · subst h; rfl
          · exact (hv l (by simp [h])).1
    have hsplit := splitToLines_join (nextPart b :: hlines ++ [] :: vs) vlast
      nl hnl hfront hvlastmem.1 hvne
    have hread : readBody (nextPart b) (lastPart b)
        (vs.map (· ++ nl) ++ [vlast]) = .error .protocolViolation := by
      refine readBody_noBoundary _ ?_
      intro l hl
      rcases List.mem_append.mp hl with h | h
      · obtain ⟨x, hx, hxx⟩ := List.mem_map.mp h
        obtain ⟨hcx, hnx, hla⟩ := hv x (by simp [hx])
        subst hxx
        rw [stripLine_append_term hcx hnl]
        exact ⟨hnx, hla⟩
      · simp only [List.mem_singleton] at h
        subst h
        rw [stripLine_clean hvlastmem.1]
        exact ⟨hvlastmem.2.1, hvlastmem.2.2⟩
    have hcol := collectUntilBlank_render hnl hlines
      (vs.map (· ++ nl) ++ [vlast]) hh
    have hpmh2 : parse_multipart_headers (hlines.map (· ++ nl) ++ [nl]) =
        .ok hs := by
      rw [parse_multipart_headers_render hnl hlines (fun l hl => (hh l hl).1),
          hpmh]
    have hm : multipartParse b mfms
        (splitToLines
          (joinLines nl ((nextPart b :: hlines ++ [] :: vs) ++ [vlast]))) =
        .error .protocolViolation := by
      rw [hsplit]
      rw [show (nextPart b :: hlines ++ [] :: vs).map (· ++ nl) ++ [vlast] =
            (nextPart b ++ nl) ::
              (hlines.map (· ++ nl) ++ nl :: (vs.map (· ++ nl) ++ [vlast]))
            by simp]
      simp only [multipartParse, hvb, not_true, if_false,
        seekBoundary_render hb hnl,
        multipartLoop_readErr hcol hpmh2 hname hread mfms
          (hlines.map (· ++ nl) ++ nl :: (vs.map (· ++ nl) ++ [vlast])).length]
    rw [parse_form_data_multipart (tooLong_none mfms _) false, hm,
        parse_form_data_multipart (tooLong_none mfms _) true, hm]
    exact ⟨rfl, rfl⟩

theorem claim_C5_witness :
    (parse_form_data (.multipart "foo".data) "x".data ⟨none, none⟩ false =
        .error .protocolViolation ∧
      parse_form_data (.multipart "foo".data) "x".data ⟨none, none⟩ true =
        .ok ([], [])) ∧
    parse_form_data (.multipart "foo".data) "x".data ⟨none, none⟩ true =
        .ok ([], []) ∧
    (parse_form_data (.multipart "foo".data)
        (joinLines ['\r', '\n']
          ((nextPart "foo".data ::
            ["Content-Disposition: form-data; name=\"test\"; filename=\"test.txt\"".data,
             "Content-Type: text/plain".data] ++ [] :: []) ++
            ["file contents and no end".data]))
        ⟨none, none⟩ false = .error .protocolViolation ∧
      parse_form_data (.multipart "foo".data)
        (joinLines ['\r', '\n']
          ((nextPart "foo".data ::
            ["Content-Disposition: form-data; name=\"test\"; filename=\"test.txt\"".data,
             "Content-Type: text/plain".data] ++ [] :: []) ++
            ["file contents and no end".data]))
        ⟨none, none⟩ true = .ok ([], [])) :=
  ⟨claim_C5.1 "foo".data "x".data none (by decide) (by decide),
   claim_C5.2.1 (.multipart "foo".data) "x".data ⟨none, none⟩ (by decide),
   claim_C5.2.2 "foo".data ['\r', '\n'] "file contents and no end".data
      ["Content-Disposition: form-data; name=\"test\"; filename=\"test.txt\"".data,
       "Content-Type: text/plain".data] []
      [("Content-Disposition".data,
        "form-data; name=\"test\"; filename=\"test.txt\"".data),
       ("Content-Type".data, "text/plain".data)]
      "test".data none (by decide) (by decide) (by decide) (by decide)
      (by decide) (by decide) (by decide) (by decide)⟩

/-- C6: a part declaring a base64 transfer encoding whose body is not
decodable yields empty form and files in silent mode and a protocol-violation
failure in strict mode; no partially decoded data is ever returned. -/
theorem claim_C6 (b nl v name enc : List Char) (hlines : List (List Char))
    (hs : Headers) (mcl mfms : Option Nat) :
    cleanLine b → validBoundary b → termStr nl →
    goodParts b [⟨hlines, [v]⟩] →
    pmhLogical hlines = .ok hs →
    dispositionName hs = some name →
    transferEncoding hs = some enc →
    lowerStr enc = "base64".data →
    base64Decode v = none →
    tooLong ⟨mcl, mfms⟩ (renderBody nl b [⟨hlines, [v]⟩]) = false →
    parse_form_data (.multipart b) (renderBody nl b [⟨hlines, [v]⟩])
        ⟨mcl, mfms⟩ false = .error .protocolViolation ∧
      parse_form_data (.multipart b) (renderBody nl b [⟨hlines, [v]⟩])
        ⟨mcl, mfms⟩ true = .ok ([], []) := by
  intro hb hvb hnl hg hpmh hname henc hlow hdec htool
  have hm : multipartParse b mfms
      (splitToLines (renderBody nl b [⟨hlines, [v]⟩])) =
      .error .protocolViolation := by
    rw [multipartParse_render hb hvb hnl mfms (by simp) hg]
    simp only [processParts, processPart, hpmh, hname, henc]
    rw [show chunksOf nl (⟨hlines, [v]⟩ : RPart).vlines = [v] from rfl,
        decodeChunks_base64_fail hlow hdec]
  rw [parse_form_data_multipart htool false, hm,
      parse_form_data_multipart htool true, hm]
  exact ⟨rfl, rfl⟩

theorem claim_C6_witness :
    parse_form_data (.multipart "foo".data)
        (renderBody ['\r', '\n'] "foo".data
          [⟨["Content-Disposition: form-data; name=\"test\"".data,
             "Content-Transfer-Encoding: base64".data],
            ["broken base 64".data]⟩]) ⟨none, none⟩ false =
        .error .protocolViolation ∧
      parse_form_data (.multipart "foo".data)
        (renderBody ['\r', '\n'] "foo".data
          [⟨["Content-Disposition: form-data; name=\"test\"".data,
             "Content-Transfer-Encoding: base64".data],
            ["broken base 64".data]⟩]) ⟨none, none⟩ true = .ok ([], []) :=
  claim_C6 "foo".data ['\r', '\n'] "broken base 64".data "test".data
    "base64".data
    ["Content-Disposition: form-data; name=\"test\"".data,
     "Content-Transfer-Encoding: base64".data]
    [("Content-Disposition".data, "form-data; name=\"test\"".data),
     ("Content-Transfer-Encoding".data, "base64".data)] none none
    (by decide) (by decide) (by decide) (by decide) (by decide) (by decide)
    (by decide) (by decide) (by decide) (by decide)

/-- C2 claims the three line-terminator conventions always give identical
results.  They do not: a field value spanning two lines keeps its interior
terminator verbatim, so the CRLF rendering and the LF rendering of the same
logical body parse to different form values. -/
theorem claim_C2_counterexample :
    parse_form_data (.multipart "foo".data)
        (renderBody ['\r', '\n'] "foo".data
          [⟨["Content-Disposition: form-data; name=foo".data],
            ["ab".data, "cd".data]⟩]) ⟨none, none⟩ true ≠
      parse_form_data (.multipart "foo".data)
        (renderBody ['\n'] "foo".data
          [⟨["Content-Disposition: form-data; name=foo".data],
            ["ab".data, "cd".data]⟩]) ⟨none, none⟩ true := by
  decide

/-- C2 (amended): for well-formed bodies in which every part's value is a
single line (no interior line terminators), rendering with CRLF, bare CR, or
bare LF parses to identical form and files; boundary recognition itself is
terminator-independent. -/
theorem claim_C2 (b nl nl2 : List Char) (parts : List RPart)
    (mfms : Option Nat) (silent : Bool) :
    cleanLine b → validBoundary b → termStr nl → termStr nl2 →
    parts ≠ [] → goodParts b parts →
    (∀ p ∈ parts, p.vlines.length ≤ 1) →
    parse_form_data (.multipart b) (renderBody nl b parts)
        ⟨none, mfms⟩ silent =
      parse_form_data (.multipart b) (renderBody nl2 b parts)
        ⟨none, mfms⟩ silent := by
  intro hb hvb hnl hnl2 hne hg hsingle
  rw [parse_form_data_multipart (tooLong_none mfms _) silent,
      parse_form_data_multipart (tooLong_none mfms _) silent,
      multipartParse_render hb hvb hnl mfms hne hg,
      multipartParse_render hb hvb hnl2 mfms hne hg,
      processParts_nl_inv parts [] [] hsingle]

theorem claim_C2_witness :
    parse_form_data (.multipart "foo".data)
        (renderBody ['\n'] "foo".data
          [⟨["Content-Disposition: form-data; name=foo".data],
            ["this is just bar".data]⟩,
           ⟨["Content-Disposition: form-data; name=bar".data],
            ["blafasel".data]⟩]) ⟨none, none⟩ true =
      parse_form_data (.multipart "foo".data)
        (renderBody ['\r', '\n'] "foo".data
          [⟨["Content-Disposition: form-data; name=foo".data],
            ["this is just bar".data]⟩,
           ⟨["Content-Disposition: form-data; name=bar".data],
            ["blafasel".data]⟩]) ⟨none, none⟩ true :=
  claim_C2 "foo".data ['\n'] ['\r', '\n']
    [⟨["Content-Disposition: form-data; name=foo".data],
      ["this is just bar".data]⟩,
     ⟨["Content-Disposition: form-data; name=bar".data],
      ["blafasel".data]⟩] none true
    (by decide) (by decide) (by decide) (by decide) (by decide) (by decide)
    (by decide)

/-- C10: in a well-formed body, value lines that are not exactly the boundary
line or the terminal line — including lines beginning with `--` — are
ordinary content: every part's value is reproduced verbatim, interior line
terminators included, and nothing is treated as a delimiter. -/
theorem claim_C10 (b : List Char) (parts : List (RPart × List Char))
    (silent : Bool) :
    cleanLine b → validBoundary b → parts ≠ [] →
    goodParts b (parts.map Prod.fst) →
    (∀ q ∈ parts, ∃ hs, pmhLogical q.1.hlines = .ok hs ∧
      dispositionName hs = some q.2 ∧ dispositionFilename hs = none ∧
      transferEncoding hs = none) →
    parse_form_data (.multipart b)
        (renderBody ['\r', '\n'] b (parts.map Prod.fst)) ⟨none, none⟩ silent =
      .ok (parts.foldl
        (fun f q => addAssoc f q.2 (joinLines ['\r', '\n'] q.1.vlines))
        [], []) := by
  intro hb hvb hne hg hex
  rw [parse_form_data_multipart (tooLong_none none _) silent,
      multipartParse_render hb hvb (by decide) none (by simpa using hne) hg,
      processParts_success parts [] [] hex]
  rfl

theorem claim_C10_witness :
    parse_form_data (.multipart "foo".data)
        (renderBody ['\r', '\n'] "foo".data
          [⟨["Content-Disposition: form-data; name=text".data],
            ["--long text".data, "--with boundary".data,
             "--lookalikes--".data]⟩]) ⟨none, none⟩ true =
      .ok ([("text".data,
             ["--long text\r\n--with boundary\r\n--lookalikes--".data])],
           []) := by
  have h := claim_C10 "foo".data
    [(⟨["Content-Disposition: form-data; name=text".data],
       ["--long text".data, "--with boundary".data, "--lookalikes--".data]⟩,
      "text".data)] true (by decide) (by decide) (by decide) (by decide)
    (by
      intro q hq
      simp only [List.mem_singleton] at hq
      subst hq
      exact ⟨[("Content-Disposition".data, "form-data; name=text".data)],
        by decide, by decide, by decide, by decide⟩)
  exact h.trans (by decide)

end Werkzeug
